import Mathlib

/-!
Shallow embedding of the `voting` crate (src/lib.rs): a poll/voting
registry with an admin list, association-list polls keyed by numeric
identifier, and the operations add_admin, create_poll, end_poll,
cast_vote together with the pure reads.  Rust HashMap values are
modelled as association lists (first-match lookup, replace-or-append
insert), u8/u64/usize as Nat, and each mutating method of
`VotingContract` (which takes `&mut self` in Rust) as a function
returning the Result together with the updated contract state.
-/

namespace Voting

/-- Model of `Address(pub Vec<u8>)`: a byte sequence (bytes as Nat). -/
structure Address where
  bytes : List Nat
deriving DecidableEq

/-- Model of `enum VotingError`. -/
inductive VotingError where
  | Unauthorized
  | InvalidOption
  | PollNotFound
  | PollEnded
  | AlreadyVoted
  | PollInactive
deriving DecidableEq

/-- Model of `struct Poll`.  `votes: HashMap<Address, usize>` is an
association list, `vote_counts: Vec<usize>` a list of Nat. -/
structure Poll where
  title : String
  description : String
  options : List String
  votes : List (Address × Nat)
  vote_counts : List Nat
  end_time : Nat
  creator : Address
  is_active : Bool
deriving DecidableEq

/-- Model of `struct VotingContract`.  `polls: HashMap<u64, Poll>` is an
association list from identifiers to polls. -/
structure VotingContract where
  admins : List Address
  polls : List (Nat × Poll)
  next_poll_id : Nat
deriving DecidableEq

/-- First-match lookup in an association list (model of `HashMap::get`). -/
def lookupKey {α β : Type} [DecidableEq α] : List (α × β) → α → Option β
  | [], _ => none
  | (k, v) :: rest, k' => if k = k' then some v else lookupKey rest k'

/-- Model of `HashMap::contains_key`. -/
def containsKey {α β : Type} [DecidableEq α] (m : List (α × β)) (k : α) : Bool :=
  (lookupKey m k).isSome

/-- Model of `HashMap::insert`: replace the first binding of the key if
present, otherwise append a new binding. -/
def insertKey {α β : Type} [DecidableEq α] : List (α × β) → α → β → List (α × β)
  | [], k, v => [(k, v)]
  | (k0, v0) :: rest, k, v =>
    if k0 = k then (k, v) :: rest else (k0, v0) :: insertKey rest k v

/-- Model of a mutation through `HashMap::get_mut`: apply `f` to the
value at the first binding of `k`, leaving everything else in place. -/
def updateKey {α β : Type} [DecidableEq α] : List (α × β) → α → (β → β) → List (α × β)
  | [], _, _ => []
  | (k0, v0) :: rest, k, f =>
    if k0 = k then (k0, f v0) :: rest else (k0, v0) :: updateKey rest k f

/-- Model of `vote_counts[option_idx] += 1`.  Total: on an out-of-range
index it leaves the list unchanged; that branch models the Rust index
panic and is shown unreachable on reachable states (claim C9). -/
def incrAt : List Nat → Nat → List Nat
  | [], _ => []
  | x :: xs, 0 => (x + 1) :: xs
  | x :: xs, n + 1 => x :: incrAt xs n

/-- Model of `VotingContract::new`. -/
def VotingContract.new : VotingContract :=
  { admins := [⟨[0]⟩], polls := [], next_poll_id := 1 }

/-- Model of `VotingContract::add_admin`. -/
def add_admin (c : VotingContract) (caller new_admin : Address) :
    Except VotingError Unit × VotingContract :=
  if caller ∈ c.admins then
    (Except.ok (), { c with admins := c.admins ++ [new_admin] })
  else
    (Except.error VotingError.Unauthorized, c)

/-- Model of `VotingContract::create_poll`. -/
def create_poll (c : VotingContract) (caller : Address) (title description : String)
    (options : List String) (duration : Nat) :
    Except VotingError Nat × VotingContract :=
  if caller ∈ c.admins then
    let poll_id := c.next_poll_id
    let poll : Poll :=
      { title := title
        description := description
        options := options
        votes := []
        vote_counts := List.replicate options.length 0
        end_time := duration
        creator := caller
        is_active := true }
    (Except.ok poll_id,
      { c with polls := insertKey c.polls poll_id poll,
               next_poll_id := c.next_poll_id + 1 })
  else
    (Except.error VotingError.Unauthorized, c)

/-- Model of `VotingContract::end_poll`. -/
def end_poll (c : VotingContract) (caller : Address) (poll_id : Nat) :
    Except VotingError Unit × VotingContract :=
  match lookupKey c.polls poll_id with
  | none => (Except.error VotingError.PollNotFound, c)
  | some poll =>
    if caller ∈ c.admins ∨ poll.creator = caller then
      let polls' := updateKey c.polls poll_id (fun p => { p with is_active := false })
      (Except.ok (), { c with polls := polls' })
    else
      (Except.error VotingError.Unauthorized, c)

/-- Model of `VotingContract::cast_vote`. -/
def cast_vote (c : VotingContract) (voter : Address) (poll_id option_idx : Nat) :
    Except VotingError Unit × VotingContract :=
  match lookupKey c.polls poll_id with
  | none => (Except.error VotingError.PollNotFound, c)
  | some poll =>
    if poll.is_active = false then
      (Except.error VotingError.PollInactive, c)
    else if containsKey poll.votes voter then
      (Except.error VotingError.AlreadyVoted, c)
    else if poll.options.length ≤ option_idx then
      (Except.error VotingError.InvalidOption, c)
    else
      let polls' := updateKey c.polls poll_id
        (fun p =>
          { p with votes := insertKey p.votes voter option_idx,
                   vote_counts := incrAt p.vote_counts option_idx })
      (Except.ok (), { c with polls := polls' })

/-- Model of `VotingContract::get_poll_results` (pure read, `&self`). -/
def get_poll_results (c : VotingContract) (poll_id : Nat) :
    Except VotingError (List (String × Nat)) :=
  match lookupKey c.polls poll_id with
  | none => Except.error VotingError.PollNotFound
  | some poll => Except.ok (poll.options.zip poll.vote_counts)

/-- Model of `VotingContract::get_active_polls` (pure read, `&self`). -/
def get_active_polls (c : VotingContract) : List (Nat × Poll) :=
  c.polls.filter (fun x => x.2.is_active)

/-- Model of `VotingContract::get_voter_participation` (pure read). -/
def get_voter_participation (c : VotingContract) (voter : Address) : Nat :=
  (c.polls.filter (fun x => containsKey x.2.votes voter)).length

/-- Model of `VotingContract::get_poll_details` (pure read). -/
def get_poll_details (c : VotingContract) (poll_id : Nat) :
    Except VotingError Poll :=
  match lookupKey c.polls poll_id with
  | none => Except.error VotingError.PollNotFound
  | some poll => Except.ok poll

/-- The operations on the registry; the pure reads are included (they do
not touch the state). -/
inductive Op where
  | addAdmin (caller new_admin : Address)
  | createPoll (caller : Address) (title description : String)
      (options : List String) (duration : Nat)
  | endPoll (caller : Address) (poll_id : Nat)
  | castVote (voter : Address) (poll_id option_idx : Nat)
  | getPollResults (poll_id : Nat)
  | getActivePolls
  | getVoterParticipation (voter : Address)
  | getPollDetails (poll_id : Nat)
deriving DecidableEq

/-- State effect of one operation (the pure reads take `&self` in Rust
and return the state unchanged). -/
def execOp (c : VotingContract) : Op → VotingContract
  | Op.addAdmin a b => (add_admin c a b).2
  | Op.createPoll a t d o du => (create_poll c a t d o du).2
  | Op.endPoll a pid => (end_poll c a pid).2
  | Op.castVote v pid i => (cast_vote c v pid i).2
  | Op.getPollResults _ => c
  | Op.getActivePolls => c
  | Op.getVoterParticipation _ => c
  | Op.getPollDetails _ => c

/-- Run a list of operations from a state. -/
def applyOps (c : VotingContract) : List Op → VotingContract
  | [] => c
  | op :: ops => applyOps (execOp c op) ops

/-- A state is reachable when some sequence of operations produces it
from `VotingContract.new`. -/
def Reachable (c : VotingContract) : Prop :=
  ∃ ops : List Op, applyOps VotingContract.new ops = c

/-- Number of voters in `votes` that chose option index `i`. -/
def countFor (votes : List (Address × Nat)) (i : Nat) : Nat :=
  (votes.filter (fun kv => kv.2 = i)).length

/-- The per-poll invariant of the spec: counters aligned with options,
no duplicate voter, each counter counts exactly its voters. -/
def PollInv (p : Poll) : Prop :=
  p.vote_counts.length = p.options.length ∧
  (p.votes.map Prod.fst).Nodup ∧
  ∀ i, i < p.options.length → p.vote_counts[i]? = some (countFor p.votes i)

/-- Every poll stored in the registry satisfies the per-poll invariant. -/
def ContractInv (c : VotingContract) : Prop :=
  ∀ id p, (id, p) ∈ c.polls → PollInv p

/-- Well-formedness of the poll identifiers: no duplicate keys, and
every key is below the next identifier to assign. -/
def IdsWF (c : VotingContract) : Prop :=
  (c.polls.map Prod.fst).Nodup ∧
  ∀ id p, (id, p) ∈ c.polls → id < c.next_poll_id

/-- Combined state invariant. -/
def Inv (c : VotingContract) : Prop :=
  IdsWF c ∧ ContractInv c

section AssocLemmas

variable {α β : Type} [DecidableEq α]

theorem lookupKey_insertKey_self (m : List (α × β)) (k : α) (v : β) :
    lookupKey (insertKey m k v) k = some v := by
  induction m with
  | nil => simp [insertKey, lookupKey]
  | cons hd tl ih =>
    obtain ⟨k0, v0⟩ := hd
    by_cases h : k0 = k
    · simp [insertKey, h, lookupKey]
    · simp [insertKey, h, lookupKey, ih]

theorem lookupKey_insertKey_ne (m : List (α × β)) (k k' : α) (v : β) (h : k ≠ k') :
    lookupKey (insertKey m k v) k' = lookupKey m k' := by
  induction m with
  | nil => simp [insertKey, lookupKey, h]
  | cons hd tl ih =>
    obtain ⟨k0, v0⟩ := hd
    by_cases h0 : k0 = k
    · subst h0
      simp [insertKey, lookupKey, h]
    · simp [insertKey, h0, lookupKey, ih]

theorem containsKey_eq_false_iff (m : List (α × β)) (k : α) :
    containsKey m k = false ↔ k ∉ m.map Prod.fst := by
  induction m with
  | nil => simp [containsKey, lookupKey]
  | cons hd tl ih =>
    obtain ⟨k0, v0⟩ := hd
    by_cases h0 : k0 = k
    · subst h0
      simp [containsKey, lookupKey]
    · simp [containsKey, lookupKey, h0, Ne.symm h0] at ih ⊢
      exact ih

theorem insertKey_of_not_contains (m : List (α × β)) (k : α) (v : β)
    (h : containsKey m k = false) : insertKey m k v = m ++ [(k, v)] := by
  induction m with
  | nil => simp [insertKey]
  | cons hd tl ih =>
    obtain ⟨k0, v0⟩ := hd
    by_cases h0 : k0 = k
    · subst h0
      simp [containsKey, lookupKey] at h
    · simp [containsKey, lookupKey, h0] at h
      simp [insertKey, h0, ih (by simp [containsKey, h])]

theorem mem_insertKey (m : List (α × β)) (k id : α) (v p : β)
    (h : (id, p) ∈ insertKey m k v) : (id, p) ∈ m ∨ (id = k ∧ p = v) := by
  induction m with
  | nil =>
    simp [insertKey] at h
    exact Or.inr h
  | cons hd tl ih =>
    obtain ⟨k0, v0⟩ := hd
    by_cases h0 : k0 = k
    · subst h0
      simp [insertKey] at h
      rcases h with h | h
      · exact Or.inr h
      · exact Or.inl (List.mem_cons_of_mem _ h)
    · simp [insertKey, h0] at h
      rcases h with h | h
      · exact Or.inl (by simp [h])
      · rcases ih h with h' | h'
        · exact Or.inl (List.mem_cons_of_mem _ h')
        · exact Or.inr h'

theorem map_fst_updateKey (m : List (α × β)) (k : α) (f : β → β) :
    (updateKey m k f).map Prod.fst = m.map Prod.fst := by
  induction m with
  | nil => simp [updateKey]
  | cons hd tl ih =>
    obtain ⟨k0, v0⟩ := hd
    by_cases h0 : k0 = k
    · simp [updateKey, h0]
    · simp [updateKey, h0, ih]

theorem lookupKey_updateKey_self (m : List (α × β)) (k : α) (f : β → β) :
    lookupKey (updateKey m k f) k = (lookupKey m k).map f := by
  induction m with
  | nil => simp [updateKey, lookupKey]
  | cons hd tl ih =>
    obtain ⟨k0, v0⟩ := hd
    by_cases h0 : k0 = k
    · subst h0
      simp [updateKey, lookupKey]
    · simp [updateKey, h0, lookupKey, ih]

theorem lookupKey_updateKey_ne (m : List (α × β)) (k k' : α) (f : β → β) (h : k ≠ k') :
    lookupKey (updateKey m k f) k' = lookupKey m k' := by
  induction m with
  | nil => simp [updateKey]
  | cons hd tl ih =>
    obtain ⟨k0, v0⟩ := hd
    by_cases h0 : k0 = k
    · subst h0
      simp [updateKey, lookupKey, h]
    · simp [updateKey, h0, lookupKey, ih]

theorem mem_updateKey (m : List (α × β)) (k id : α) (f : β → β) (p : β)
    (h : (id, p) ∈ updateKey m k f) :
    (id, p) ∈ m ∨ (id = k ∧ ∃ q, lookupKey m k = some q ∧ p = f q) := by
  induction m with
  | nil => simp [updateKey] at h
  | cons hd tl ih =>
    obtain ⟨k0, v0⟩ := hd
    by_cases h0 : k0 = k
    · subst h0
      simp [updateKey] at h
      rcases h with ⟨h1, h2⟩ | h
      · exact Or.inr ⟨h1, v0, by simp [lookupKey], h2⟩
      · exact Or.inl (List.mem_cons_of_mem _ h)
    · simp [updateKey, h0] at h
      rcases h with h | h
      · exact Or.inl (by simp [h])
      · rcases ih h with h' | ⟨h1, q, h2, h3⟩
        · exact Or.inl (List.mem_cons_of_mem _ h')
        · refine Or.inr ⟨h1, q, ?_, h3⟩
          simp [lookupKey, h0, h2]

theorem lookupKey_mem (m : List (α × β)) (k : α) (v : β)
    (h : lookupKey m k = some v) : (k, v) ∈ m := by
  induction m with
  | nil => simp [lookupKey] at h
  | cons hd tl ih =>
    obtain ⟨k0, v0⟩ := hd
    by_cases h0 : k0 = k
    · subst h0
      simp [lookupKey] at h
      simp [h]
    · simp [lookupKey, h0] at h
      exact List.mem_cons_of_mem _ (ih h)

theorem lookupKey_of_mem_nodup (m : List (α × β)) (k : α) (v : β)
    (hnd : (m.map Prod.fst).Nodup) (h : (k, v) ∈ m) : lookupKey m k = some v := by
  induction m with
  | nil => simp at h
  | cons hd tl ih =>
    obtain ⟨k0, v0⟩ := hd
    rw [List.map_cons, List.nodup_cons] at hnd
    rcases List.mem_cons.mp h with h | h
    · simp [Prod.ext_iff] at h
      simp [lookupKey, h.1, h.2]
    · have hk : k0 ≠ k := by
        intro hk
        apply hnd.1
        rw [hk]
        exact List.mem_map.mpr ⟨(k, v), h, rfl⟩
      simp [lookupKey, hk]
      exact ih hnd.2 h

end AssocLemmas

theorem length_incrAt (xs : List Nat) (n : Nat) : (incrAt xs n).length = xs.length := by
  induction xs generalizing n with
  | nil => simp [incrAt]
  | cons x xs ih =>
    cases n with
    | zero => simp [incrAt]
    | succ n => simp [incrAt, ih]

theorem getElem?_incrAt_self (xs : List Nat) (n : Nat) (h : n < xs.length) :
    (incrAt xs n)[n]? = xs[n]?.map (· + 1) := by
  induction xs generalizing n with
  | nil => simp at h
  | cons x xs ih =>
    cases n with
    | zero => simp [incrAt]
    | succ n =>
      simp [incrAt]
      exact ih n (by simpa using h)

theorem getElem?_incrAt_ne (xs : List Nat) (n i : Nat) (h : i ≠ n) :
    (incrAt xs n)[i]? = xs[i]? := by
  induction xs generalizing n i with
  | nil => simp [incrAt]
  | cons x xs ih =>
    cases n with
    | zero =>
      cases i with
      | zero => exact absurd rfl h
      | succ i => simp [incrAt]
    | succ n =>
      cases i with
      | zero => simp [incrAt]
      | succ i =>
        simp [incrAt]
        exact ih n i (by omega)

theorem countFor_append (a b : List (Address × Nat)) (i : Nat) :
    countFor (a ++ b) i = countFor a i + countFor b i := by
  simp [countFor]

theorem countFor_single (v : Address) (j i : Nat) :
    countFor [(v, j)] i = if j = i then 1 else 0 := by
  by_cases h : j = i <;> simp [countFor, h]

theorem getElem?_replicate_zero (n i : Nat) (h : i < n) :
    (List.replicate n (0 : Nat))[i]? = some 0 := by
  induction n generalizing i with
  | zero => simp at h
  | succ n ih =>
    cases i with
    | zero => simp [List.replicate]
    | succ i =>
      simp [List.replicate]
      exact ih i (by omega)

theorem zip_replicate_zero (o : List String) :
    o.zip (List.replicate o.length (0 : Nat)) = o.map (fun s => (s, 0)) := by
  induction o with
  | nil => simp
  | cons s o ih => simp [List.replicate, ih]

/-- The poll built by `create_poll` satisfies the per-poll invariant. -/
theorem pollInv_fresh (t d : String) (o : List String) (du : Nat) (caller : Address) :
    PollInv { title := t, description := d, options := o, votes := [],
              vote_counts := List.replicate o.length 0, end_time := du,
              creator := caller, is_active := true } := by
  refine ⟨by simp, by simp, ?_⟩
  intro i hi
  simp only
  rw [getElem?_replicate_zero _ _ (by simpa using hi)]
  simp [countFor]

/-- Recording a first vote preserves the per-poll invariant. -/
theorem pollInv_cast_update (p : Poll) (voter : Address) (idx : Nat)
    (hp : PollInv p) (hvoted : containsKey p.votes voter = false)
    (hidx : idx < p.options.length) :
    PollInv { p with votes := insertKey p.votes voter idx,
                     vote_counts := incrAt p.vote_counts idx } := by
  obtain ⟨hlen, hnd, hcnt⟩ := hp
  have hins : insertKey p.votes voter idx = p.votes ++ [(voter, idx)] :=
    insertKey_of_not_contains _ _ _ hvoted
  have hnotin : voter ∉ p.votes.map Prod.fst :=
    (containsKey_eq_false_iff _ _).mp hvoted
  refine ⟨by simp [length_incrAt, hlen], ?_, ?_⟩
  · rw [hins]
    simp only [List.map_append, List.map_cons, List.map_nil]
    rw [List.nodup_append]
    refine ⟨hnd, List.nodup_singleton _, ?_⟩
    intro a ha hb
    simp at hb
    subst hb
    exact hnotin ha
  · intro i hi
    simp only at hi ⊢
    rw [hins, countFor_append, countFor_single]
    by_cases hieq : i = idx
    · subst hieq
      rw [getElem?_incrAt_self _ _ (by rw [hlen]; exact hidx)]
      rw [hcnt i hi]
      simp
    · rw [getElem?_incrAt_ne _ _ _ hieq]
      rw [hcnt i hi]
      simp [Ne.symm hieq]

/-- Ending a poll preserves the per-poll invariant. -/
theorem pollInv_end (p : Poll) (hp : PollInv p) :
    PollInv { p with is_active := false } := by
  obtain ⟨hlen, hnd, hcnt⟩ := hp
  exact ⟨hlen, hnd, hcnt⟩

/-- A contract whose identifiers are well formed has no poll stored at
the next identifier. -/
theorem not_contains_next (c : VotingContract) (h : IdsWF c) :
    containsKey c.polls c.next_poll_id = false := by
  rw [containsKey_eq_false_iff]
  intro hmem
  rcases List.mem_map.mp hmem with ⟨⟨id, p⟩, hm, hfst⟩
  have := h.2 id p hm
  simp at hfst
  omega

theorem inv_add_admin (c : VotingContract) (a b : Address) (h : Inv c) :
    Inv (add_admin c a b).2 := by
  by_cases hmem : a ∈ c.admins <;> simpa [add_admin, hmem, Inv, IdsWF, ContractInv] using h

theorem inv_create_poll (c : VotingContract) (a : Address) (t d : String)
    (o : List String) (du : Nat) (h : Inv c) : Inv (create_poll c a t d o du).2 := by
  by_cases hmem : a ∈ c.admins
  · have hnc := not_contains_next c h.1
    have hins := insertKey_of_not_contains c.polls c.next_poll_id
      { title := t, description := d, options := o, votes := [],
        vote_counts := List.replicate o.length 0, end_time := du,
        creator := a, is_active := true } hnc
    simp only [create_poll, hmem, if_pos]
    constructor
    · constructor
      · simp only [hins, List.map_append, List.map_cons, List.map_nil]
        rw [List.nodup_append]
        refine ⟨h.1.1, List.nodup_singleton _, ?_⟩
        intro x hx hy
        simp at hy
        subst hy
        exact (containsKey_eq_false_iff _ _).mp hnc hx
      · intro id p hm
        simp only [hins] at hm
        rcases List.mem_append.mp hm with hm | hm
        · have := h.1.2 id p hm
          simp only
          omega
        · simp at hm
          simp [hm.1]
    · intro id p hm
      simp only [hins] at hm
      rcases List.mem_append.mp hm with hm | hm
      · exact h.2 id p hm
      · simp [Prod.ext_iff] at hm
        rw [hm.2]
        exact pollInv_fresh t d o du a
  · simpa [create_poll, hmem, Inv, IdsWF, ContractInv] using h

theorem inv_end_poll (c : VotingContract) (a : Address) (pid : Nat) (h : Inv c) :
    Inv (end_poll c a pid).2 := by
  cases hlk : lookupKey c.polls pid with
  | none => simpa [end_poll, hlk, Inv, IdsWF, ContractInv] using h
  | some poll =>
    by_cases hauth : a ∈ c.admins ∨ poll.creator = a
    · simp only [end_poll, hlk, hauth, if_pos]
      constructor
      · constructor
        · rw [map_fst_updateKey]
          exact h.1.1
        · intro id p hm
          rcases mem_updateKey _ _ _ _ _ hm with hm' | ⟨hid, q, hq, hpq⟩
          · exact h.1.2 id p hm'
          · rw [hid]
            exact h.1.2 pid q (lookupKey_mem _ _ _ hq)
      · intro id p hm
        rcases mem_updateKey _ _ _ _ _ hm with hm' | ⟨hid, q, hq, hpq⟩
        · exact h.2 id p hm'
        · rw [hpq]
          exact pollInv_end q (h.2 pid q (lookupKey_mem _ _ _ hq))
    · simpa [end_poll, hlk, hauth, Inv, IdsWF, ContractInv] using h

theorem inv_cast_vote (c : VotingContract) (v : Address) (pid idx : Nat) (h : Inv c) :
    Inv (cast_vote c v pid idx).2 := by
  cases hlk : lookupKey c.polls pid with
  | none => simpa [cast_vote, hlk, Inv, IdsWF, ContractInv] using h
  | some poll =>
    by_cases hact : poll.is_active = false
    · simpa [cast_vote, hlk, hact, Inv, IdsWF, ContractInv] using h
    · by_cases hvoted : containsKey poll.votes v
      · simpa [cast_vote, hlk, hact, hvoted, Inv, IdsWF, ContractInv] using h
      · by_cases hoob : poll.options.length ≤ idx
        · simpa [cast_vote, hlk, hact, hvoted, hoob, Inv, IdsWF, ContractInv] using h
        · simp only [cast_vote, hlk]
          rw [if_neg hact, if_neg hvoted, if_neg hoob]
          constructor
          · constructor
            · rw [map_fst_updateKey]
              exact h.1.1
            · intro id p hm
              rcases mem_updateKey _ _ _ _ _ hm with hm' | ⟨hid, q, hq, hpq⟩
              · exact h.1.2 id p hm'
              · rw [hid]
                exact h.1.2 pid q (lookupKey_mem _ _ _ hq)
          · intro id p hm
            rcases mem_updateKey _ _ _ _ _ hm with hm' | ⟨hid, q, hq, hpq⟩
            · exact h.2 id p hm'
            · have hqp : q = poll := by
                rw [hq] at hlk
                exact Option.some.inj hlk
              rw [hpq]
              refine pollInv_cast_update q v idx (h.2 pid q (lookupKey_mem _ _ _ hq)) ?_ ?_
              · rw [hqp]
                simpa using hvoted
              · rw [hqp]
                omega

theorem inv_execOp (c : VotingContract) (op : Op) (h : Inv c) : Inv (execOp c op) := by
  cases op with
  | addAdmin a b => exact inv_add_admin c a b h
  | createPoll a t d o du => exact inv_create_poll c a t d o du h
  | endPoll a pid => exact inv_end_poll c a pid h
  | castVote v pid idx => exact inv_cast_vote c v pid idx h
  | getPollResults _ => exact h
  | getActivePolls => exact h
  | getVoterParticipation _ => exact h
  | getPollDetails _ => exact h

theorem inv_applyOps (c : VotingContract) (ops : List Op) (h : Inv c) :
    Inv (applyOps c ops) := by
  induction ops generalizing c with
  | nil => exact h
  | cons op ops ih => exact ih _ (inv_execOp c op h)

theorem inv_new : Inv VotingContract.new := by
  refine ⟨⟨?_, ?_⟩, ?_⟩ <;> simp [VotingContract.new, IdsWF, ContractInv]

theorem reachable_inv (c : VotingContract) (h : Reachable c) : Inv c := by
  obtain ⟨ops, hops⟩ := h
  rw [← hops]
  exact inv_applyOps _ ops inv_new

/-- The sixteen lowercase hexadecimal digit characters. -/
def hexDigits : List Char := "0123456789abcdef".data

/-- Lowercase hexadecimal digit character for a value below 16
(48 is the code of the zero digit, 87 + 10 the code of the letter a). -/
def hexDigitChar (n : Nat) : Char :=
  if n < 10 then Char.ofNat (48 + n) else Char.ofNat (87 + n)

/-- The two lowercase hexadecimal digits of one byte, high digit first. -/
def byteHex (b : Nat) : List Char :=
  [hexDigitChar (b / 16), hexDigitChar (b % 16)]

/-- Modelled from the spec: the `hex::encode` function of the external
hex crate, which is not part of src/: the lowercase hexadecimal encoding
of a byte sequence, two digits per byte, bytes in order. -/
def hexEncode : List Nat → String
  | [] => ""
  | b :: bs => String.mk (byteHex b) ++ hexEncode bs

/-- Model of the `fmt::Display` impl for `Address`:
`write!(f, "0x{}", hex::encode(&self.0))`. -/
def Address.display (a : Address) : String :=
  "0x" ++ hexEncode a.bytes

theorem data_hexEncode (bs : List Nat) :
    (hexEncode bs).data = bs.flatMap byteHex := by
  induction bs with
  | nil => rfl
  | cons b bs ih => simp [hexEncode, String.data_append, ih, String.mk]

/-- Sample addresses, operation lists and states used by witnesses. -/
def addr0 : Address := ⟨[0]⟩

def addr2 : Address := ⟨[2]⟩

def addr3 : Address := ⟨[3]⟩

/-- Operations: the bootstrap admin creates a two-option poll, then a
voter casts a vote for option 0. -/
def wOps : List Op := [Op.createPoll addr0 "T" "D" ["A", "B"] 86400, Op.castVote addr2 1 0]

def wState : VotingContract := applyOps VotingContract.new wOps

/-- The poll stored in `wState` under identifier 1. -/
def wPoll : Poll :=
  { title := "T", description := "D", options := ["A", "B"],
    votes := [(addr2, 0)], vote_counts := [1, 0], end_time := 86400,
    creator := addr0, is_active := true }

/-- Operations: the bootstrap admin creates a one-option poll and then
ends it. -/
def eOps : List Op := [Op.createPoll addr0 "T" "D" ["A"] 86400, Op.endPoll addr0 1]

def eState : VotingContract := applyOps VotingContract.new eOps

/-- The ended poll stored in `eState` under identifier 1. -/
def ePoll : Poll :=
  { title := "T", description := "D", options := ["A"],
    votes := [], vote_counts := [0], end_time := 86400,
    creator := addr0, is_active := false }

/-- An unreachable demonstration state for the check-order witness: an
inactive poll in which `addr2` already voted and only one option exists,
so that a vote with an out-of-range index violates three checks at once. -/
def bPoll : Poll :=
  { title := "T", description := "D", options := ["A"],
    votes := [(addr2, 0)], vote_counts := [1], end_time := 0,
    creator := addr0, is_active := false }

def bState : VotingContract :=
  { admins := [addr0], polls := [(1, bPoll)], next_poll_id := 2 }

/-- Claim C1: on every reachable registry state, every stored poll has
vote_counts aligned with options, no duplicate voter key in votes, and
each counter equal to the number of voters mapped to its index; the
invariant is established by create_poll and preserved by every
operation (the pure reads take the state unchanged through `execOp`). -/
theorem claim_C1 (c : VotingContract) (h : Reachable c) :
    ∀ id p, (id, p) ∈ c.polls →
      p.vote_counts.length = p.options.length ∧
      (p.votes.map Prod.fst).Nodup ∧
      ∀ i, i < p.options.length → p.vote_counts[i]? = some (countFor p.votes i) :=
  fun id p hm => (reachable_inv c h).2 id p hm

theorem claim_C1_witness :
    wPoll.vote_counts.length = wPoll.options.length ∧
    (wPoll.votes.map Prod.fst).Nodup ∧
    wPoll.vote_counts[0]? = some (countFor wPoll.votes 0) := by
  have h := claim_C1 wState ⟨wOps, rfl⟩ 1 wPoll (by decide)
  exact ⟨h.1, h.2.1, h.2.2 0 (by decide)⟩

/-- Claim C4: for a caller outside the admin sequence, create_poll and
add_admin return Unauthorized and return the registry state exactly as
it was, so no poll identifier is consumed. -/
theorem claim_C4 (c : VotingContract) (caller : Address) (h : caller ∉ c.admins) :
    (∀ t d o du, create_poll c caller t d o du =
      (Except.error VotingError.Unauthorized, c)) ∧
    (∀ a, add_admin c caller a = (Except.error VotingError.Unauthorized, c)) := by
  constructor
  · intro t d o du
    simp [create_poll, h]
  · intro a
    simp [add_admin, h]

theorem claim_C4_witness :
    create_poll VotingContract.new addr2 "T" "D" ["A"] 5 =
      (Except.error VotingError.Unauthorized, VotingContract.new) ∧
    add_admin VotingContract.new addr2 addr3 =
      (Except.error VotingError.Unauthorized, VotingContract.new) :=
  ⟨(claim_C4 VotingContract.new addr2 (by decide)).1 "T" "D" ["A"] 5,
   (claim_C4 VotingContract.new addr2 (by decide)).2 addr3⟩

set_option maxRecDepth 4000 in
/-- Claim C8: the Display formatting of an Address is the string 0x
followed by the lowercase hexadecimal encoding of its byte sequence,
two hex digits per byte, in order; Address([1,2,3]) formats as
0x010203. -/
theorem claim_C8 :
    (∀ bs : List Nat, (Address.display ⟨bs⟩).data =
      '0' :: 'x' :: bs.flatMap byteHex) ∧
    (∀ b : Nat, b < 256 →
      hexDigitChar (b / 16) ∈ hexDigits ∧ hexDigitChar (b % 16) ∈ hexDigits) ∧
    Address.display ⟨[1, 2, 3]⟩ = "0x010203" := by
  refine ⟨?_, by decide, by decide⟩
  intro bs
  simp [Address.display, String.data_append, data_hexEncode]

theorem claim_C8_witness :
    Address.display ⟨[1, 2, 3]⟩ = "0x010203" ∧
    hexDigitChar (171 / 16) ∈ hexDigits ∧ hexDigitChar (171 % 16) ∈ hexDigits :=
  ⟨claim_C8.2.2, claim_C8.2.1 171 (by decide)⟩

/-- Claim C9: on a reachable state, whenever the bounds check of
cast_vote passes (the option index is below the length of options), the
index is also below the length of vote_counts, so the direct indexing
into vote_counts cannot go out of bounds: the out-of-range branch of
incrAt is unreachable. -/
theorem claim_C9 (c : VotingContract) (pid idx : Nat) (p : Poll)
    (hr : Reachable c) (hp : lookupKey c.polls pid = some p)
    (hidx : idx < p.options.length) : idx < p.vote_counts.length := by
  have hinv := (reachable_inv c hr).2 pid p (lookupKey_mem _ _ _ hp)
  rw [hinv.1]
  exact hidx

theorem claim_C9_witness : 0 < wPoll.vote_counts.length :=
  claim_C9 wState 1 0 wPoll ⟨wOps, rfl⟩ (by decide) (by decide)

set_option maxRecDepth 4000 in
/-- Claim C10: the constructor returns a registry whose admin sequence
is exactly the single-byte address [0] (displayed 0x00), with no polls
and next identifier 1; any first create_poll by an admin of the fresh
registry succeeds and returns identifier 1. -/
theorem claim_C10 :
    VotingContract.new.admins = [⟨[0]⟩] ∧
    Address.display ⟨[0]⟩ = "0x00" ∧
    VotingContract.new.polls = [] ∧
    VotingContract.new.next_poll_id = 1 ∧
    ∀ caller t d o du, caller ∈ VotingContract.new.admins →
      (create_poll VotingContract.new caller t d o du).1 = Except.ok 1 := by
  refine ⟨rfl, by decide, rfl, rfl, ?_⟩
  intro caller t d o du hmem
  simp [VotingContract.new] at hmem
  subst hmem
  simp [create_poll, VotingContract.new]

theorem claim_C10_witness :
    addr0 ∈ VotingContract.new.admins ∧
    (create_poll VotingContract.new addr0 "T" "D" ["A"] 7).1 = Except.ok 1 :=
  ⟨by decide, claim_C10.2.2.2.2 addr0 "T" "D" ["A"] 7 (by decide)⟩

/-- Claim C7: get_poll_results returns PollNotFound when the poll is
missing, and otherwise the option texts paired with their counters in
option order (a pure read: the state is not part of its result type);
right after create_poll with N options it returns the N options each
paired with count 0. -/
theorem claim_C7 (c : VotingContract) (pid : Nat) :
    (lookupKey c.polls pid = none →
      get_poll_results c pid = Except.error VotingError.PollNotFound) ∧
    (∀ p, lookupKey c.polls pid = some p →
      get_poll_results c pid = Except.ok (p.options.zip p.vote_counts)) ∧
    (∀ caller t d o du id c',
      create_poll c caller t d o du = (Except.ok id, c') →
      get_poll_results c' id = Except.ok (o.map (fun s => (s, 0)))) := by
  refine ⟨?_, ?_, ?_⟩
  · intro h
    simp [get_poll_results, h]
  · intro p h
    simp [get_poll_results, h]
  · intro caller t d o du id c' h
    by_cases hmem : caller ∈ c.admins
    · simp only [create_poll, hmem, if_pos, Prod.mk.injEq] at h
      obtain ⟨hid, hc'⟩ := h
      have hid' : id = c.next_poll_id := (Except.ok.inj hid).symm
      subst hid'
      rw [← hc']
      simp only [get_poll_results, lookupKey_insertKey_self]
      rw [zip_replicate_zero]
    · simp [create_poll, hmem] at h

theorem claim_C7_witness :
    get_poll_results wState 1 = Except.ok ([("A", 1), ("B", 0)]) ∧
    get_poll_results (create_poll VotingContract.new addr0 "T" "D" ["A", "B"] 5).2 1 =
      Except.ok ([("A", 0), ("B", 0)]) := by
  constructor
  · rw [(claim_C7 wState 1).2.1 wPoll (by decide)]
    rfl
  · rw [(claim_C7 VotingContract.new 1).2.2 addr0 "T" "D" ["A", "B"] 5 1
      (create_poll VotingContract.new addr0 "T" "D" ["A", "B"] 5).2 rfl]
    rfl

/-- Claim C2: cast_vote checks, in order: poll existence (PollNotFound),
poll activity (PollInactive), duplicate voter (AlreadyVoted), option
bounds (InvalidOption); each error branch leaves the state unchanged,
and when every check passes the vote is recorded for the voter and the
chosen counter incremented by 1.  Inactivity wins over duplicate
voting, which wins over an out-of-range index. -/
theorem claim_C2 (c : VotingContract) (voter : Address) (pid idx : Nat) :
    (lookupKey c.polls pid = none →
      cast_vote c voter pid idx = (Except.error VotingError.PollNotFound, c)) ∧
    (∀ p, lookupKey c.polls pid = some p → p.is_active = false →
      cast_vote c voter pid idx = (Except.error VotingError.PollInactive, c)) ∧
    (∀ p, lookupKey c.polls pid = some p → p.is_active = true →
      containsKey p.votes voter = true →
      cast_vote c voter pid idx = (Except.error VotingError.AlreadyVoted, c)) ∧
    (∀ p, lookupKey c.polls pid = some p → p.is_active = true →
      containsKey p.votes voter = false → p.options.length ≤ idx →
      cast_vote c voter pid idx = (Except.error VotingError.InvalidOption, c)) ∧
    (∀ p, lookupKey c.polls pid = some p → p.is_active = true →
      containsKey p.votes voter = false → idx < p.options.length →
      (cast_vote c voter pid idx).1 = Except.ok () ∧
      containsKey (cast_vote c voter pid idx).2.polls pid = true ∧
      ∀ p', lookupKey (cast_vote c voter pid idx).2.polls pid = some p' →
        lookupKey p'.votes voter = some idx ∧
        p'.vote_counts = incrAt p.vote_counts idx ∧
        (p.vote_counts.length = p.options.length →
          p'.vote_counts[idx]? = p.vote_counts[idx]?.map (· + 1))) := by
  refine ⟨?_, ?_, ?_, ?_, ?_⟩
  · intro h
    simp [cast_vote, h]
  · intro p h hia
    simp [cast_vote, h, hia]
  · intro p h hact hvoted
    simp [cast_vote, h, hact, hvoted]
  · intro p h hact hvoted hoob
    simp [cast_vote, h, hact, hvoted, hoob]
  · intro p h hact hvoted hlt
    have hact' : ¬p.is_active = false := by simp [hact]
    have hvoted' : ¬containsKey p.votes voter = true := by simp [hvoted]
    have hoob' : ¬p.options.length ≤ idx := by omega
    simp only [cast_vote, h]
    rw [if_neg hact', if_neg hvoted', if_neg hoob']
    refine ⟨rfl, ?_, ?_⟩
    · simp [containsKey, lookupKey_updateKey_self, h]
    · intro p' hp'
      simp only [lookupKey_updateKey_self, h, Option.map_some] at hp'
      have hp'' := (Option.some.inj hp').symm
      subst hp''
      refine ⟨lookupKey_insertKey_self _ _ _, rfl, ?_⟩
      intro hlen
      exact getElem?_incrAt_self _ _ (by omega)

theorem claim_C2_witness :
    cast_vote bState addr2 1 5 = (Except.error VotingError.PollInactive, bState) :=
  (claim_C2 bState addr2 1 5).2.1 bPoll (by decide) (by decide)

/-- Claim C3: a first valid vote on an active poll succeeds,
increments exactly the chosen counter by 1, leaves the other counters,
the option list and every other poll unchanged; a second attempt by the
same voter on the same poll returns AlreadyVoted with the state (hence
all counts) unchanged.  The alignment hypothesis between vote_counts
and options holds on every reachable state by claim C1. -/
theorem claim_C3 (c : VotingContract) (voter : Address) (pid idx : Nat) (p : Poll)
    (hp : lookupKey c.polls pid = some p) (hact : p.is_active = true)
    (hnv : containsKey p.votes voter = false) (hidx : idx < p.options.length)
    (hlen : p.vote_counts.length = p.options.length) :
    (cast_vote c voter pid idx).1 = Except.ok () ∧
    (∀ p', lookupKey (cast_vote c voter pid idx).2.polls pid = some p' →
      p'.options = p.options ∧
      p'.vote_counts[idx]? = p.vote_counts[idx]?.map (· + 1) ∧
      ∀ j, j ≠ idx → p'.vote_counts[j]? = p.vote_counts[j]?) ∧
    (∀ id', id' ≠ pid →
      lookupKey (cast_vote c voter pid idx).2.polls id' = lookupKey c.polls id') ∧
    (∀ idx', cast_vote (cast_vote c voter pid idx).2 voter pid idx' =
      (Except.error VotingError.AlreadyVoted, (cast_vote c voter pid idx).2)) := by
  have hact' : ¬p.is_active = false := by simp [hact]
  have hnv' : ¬containsKey p.votes voter = true := by simp [hnv]
  have hoob' : ¬p.options.length ≤ idx := by omega
  have hred : cast_vote c voter pid idx =
      (Except.ok (), { c with polls := (updateKey c.polls pid
        (fun p => { p with votes := insertKey p.votes voter idx,
                           vote_counts := incrAt p.vote_counts idx })) }) := by
    simp only [cast_vote, hp]
    rw [if_neg hact', if_neg hnv', if_neg hoob']
  rw [hred]
  refine ⟨rfl, ?_, ?_, ?_⟩
  · intro p' hp'
    simp only [lookupKey_updateKey_self, hp, Option.map_some] at hp'
    have hp'' := (Option.some.inj hp').symm
    subst hp''
    refine ⟨rfl, getElem?_incrAt_self _ _ (by omega), ?_⟩
    intro j hj
    exact getElem?_incrAt_ne _ _ _ hj
  · intro id' hne
    exact lookupKey_updateKey_ne _ _ _ _ (Ne.symm hne)
  · have hlk2 : lookupKey (updateKey c.polls pid (fun p =>
        { p with votes := insertKey p.votes voter idx,
                 vote_counts := incrAt p.vote_counts idx })) pid =
        some { p with votes := insertKey p.votes voter idx,
                      vote_counts := incrAt p.vote_counts idx } := by
      rw [lookupKey_updateKey_self, hp]
      rfl
    intro idx'
    simp [cast_vote, hlk2, hact, containsKey, lookupKey_insertKey_self]

theorem claim_C3_witness :
    (cast_vote wState addr3 1 1).1 = Except.ok () ∧
    cast_vote (cast_vote wState addr3 1 1).2 addr3 1 0 =
      (Except.error VotingError.AlreadyVoted, (cast_vote wState addr3 1 1).2) := by
  have h := claim_C3 wState addr3 1 1 wPoll (by decide) (by decide) (by decide)
    (by decide) (by decide)
  exact ⟨h.1, h.2.2.2 0⟩

/-- Claim C5: end_poll returns PollNotFound when the poll is missing;
when it exists it returns Unauthorized unless the caller is an admin or
the creator; when authorized it succeeds and sets is_active to false,
and a repeated end_poll also succeeds (no separate already-ended error)
and keeps is_active false. -/
theorem claim_C5 (c : VotingContract) (caller : Address) (pid : Nat) :
    (lookupKey c.polls pid = none →
      end_poll c caller pid = (Except.error VotingError.PollNotFound, c)) ∧
    (∀ p, lookupKey c.polls pid = some p → caller ∉ c.admins →
      p.creator ≠ caller →
      end_poll c caller pid = (Except.error VotingError.Unauthorized, c)) ∧
    (∀ p, lookupKey c.polls pid = some p →
      (caller ∈ c.admins ∨ p.creator = caller) →
      (end_poll c caller pid).1 = Except.ok () ∧
      lookupKey (end_poll c caller pid).2.polls pid = some { p with is_active := false } ∧
      (end_poll (end_poll c caller pid).2 caller pid).1 = Except.ok () ∧
      lookupKey (end_poll (end_poll c caller pid).2 caller pid).2.polls pid =
        some { p with is_active := false }) := by
  refine ⟨?_, ?_, ?_⟩
  · intro h
    simp [end_poll, h]
  · intro p h hna hnc
    simp [end_poll, h, hna, hnc]
  · intro p h hauth
    have hred : end_poll c caller pid =
        (Except.ok (), { c with polls := (updateKey c.polls pid
          (fun p => { p with is_active := false })) }) := by
      simp only [end_poll, h]
      rw [if_pos hauth]
    have hlk1 : lookupKey ({ c with polls := (updateKey c.polls pid
        (fun p => { p with is_active := false })) } : VotingContract).polls pid =
        some { p with is_active := false } := by
      rw [lookupKey_updateKey_self, h]
      rfl
    have hauth1 : caller ∈ c.admins ∨ (Poll.creator { p with is_active := false }) = caller := by
      rcases hauth with hA | hC
      · exact Or.inl hA
      · exact Or.inr hC
    refine ⟨by rw [hred], by rw [hred]; exact hlk1, ?_, ?_⟩
    · rw [hred]
      simp only [end_poll, hlk1]
      rw [if_pos hauth1]
    · rw [hred]
      simp only [end_poll, hlk1]
      rw [if_pos hauth1, lookupKey_updateKey_self, hlk1]
      rfl

theorem claim_C5_witness :
    (end_poll wState addr0 1).1 = Except.ok () ∧
    lookupKey (end_poll wState addr0 1).2.polls 1 =
      some { wPoll with is_active := false } ∧
    (end_poll (end_poll wState addr0 1).2 addr0 1).1 = Except.ok () := by
  have h := (claim_C5 wState addr0 1).2.2 wPoll (by decide) (Or.inl (by decide))
  exact ⟨h.1, h.2.1, h.2.2.1⟩

/-- One operation keeps an inactive poll present and inactive, on any
state whose identifiers are well formed. -/
theorem execOp_preserves_inactive (c : VotingContract) (pid : Nat) (p : Poll) (op : Op)
    (hw : Inv c) (hp : lookupKey c.polls pid = some p) (hia : p.is_active = false) :
    ∃ p', lookupKey (execOp c op).polls pid = some p' ∧ p'.is_active = false := by
  cases op with
  | addAdmin a b =>
    refine ⟨p, ?_, hia⟩
    by_cases hmem : a ∈ c.admins <;> simp [execOp, add_admin, hmem, hp]
  | createPoll a t d o du =>
    refine ⟨p, ?_, hia⟩
    by_cases hmem : a ∈ c.admins
    · have hlt : pid < c.next_poll_id := hw.1.2 pid p (lookupKey_mem _ _ _ hp)
      have hne : c.next_poll_id ≠ pid := by omega
      simp only [execOp, create_poll, hmem, if_pos]
      rw [lookupKey_insertKey_ne _ _ _ _ hne]
      exact hp
    · simp [execOp, create_poll, hmem, hp]
  | endPoll a pid2 =>
    cases hlk2 : lookupKey c.polls pid2 with
    | none => exact ⟨p, by simp [execOp, end_poll, hlk2, hp], hia⟩
    | some q =>
      by_cases hauth : a ∈ c.admins ∨ q.creator = a
      · by_cases heq : pid2 = pid
        · subst heq
          refine ⟨{ q with is_active := false }, ?_, rfl⟩
          simp only [execOp, end_poll, hlk2]
          rw [if_pos hauth, lookupKey_updateKey_self, hlk2]
          rfl
        · refine ⟨p, ?_, hia⟩
          simp only [execOp, end_poll, hlk2]
          rw [if_pos hauth]
          rw [lookupKey_updateKey_ne _ _ _ _ heq]
          exact hp
      · exact ⟨p, by simp [execOp, end_poll, hlk2, hauth, hp], hia⟩
  | castVote v pid2 i =>
    cases hlk2 : lookupKey c.polls pid2 with
    | none => exact ⟨p, by simp [execOp, cast_vote, hlk2, hp], hia⟩
    | some q =>
      by_cases hact : q.is_active = false
      · exact ⟨p, by simp [execOp, cast_vote, hlk2, hact, hp], hia⟩
      · have hne : pid2 ≠ pid := by
          intro he
          subst he
          rw [hp] at hlk2
          rw [← Option.some.inj hlk2] at hact
          exact hact hia
        by_cases hv : containsKey q.votes v
        · exact ⟨p, by simp [execOp, cast_vote, hlk2, hact, hv, hp], hia⟩
        · by_cases hoob : q.options.length ≤ i
          · exact ⟨p, by simp [execOp, cast_vote, hlk2, hact, hv, hoob, hp], hia⟩
          · refine ⟨p, ?_, hia⟩
            simp only [execOp, cast_vote, hlk2]
            rw [if_neg hact, if_neg (by simp [hv]), if_neg hoob]
            rw [lookupKey_updateKey_ne _ _ _ _ hne]
            exact hp
  | getPollResults _ => exact ⟨p, hp, hia⟩
  | getActivePolls => exact ⟨p, hp, hia⟩
  | getVoterParticipation _ => exact ⟨p, hp, hia⟩
  | getPollDetails _ => exact ⟨p, hp, hia⟩

/-- Any sequence of operations keeps an inactive poll present and
inactive. -/
theorem applyOps_preserves_inactive (ops : List Op) (c : VotingContract) (pid : Nat)
    (p : Poll) (hw : Inv c) (hp : lookupKey c.polls pid = some p)
    (hia : p.is_active = false) :
    ∃ p', lookupKey (applyOps c ops).polls pid = some p' ∧ p'.is_active = false := by
  induction ops generalizing c p with
  | nil => exact ⟨p, hp, hia⟩
  | cons op ops ih =>
    obtain ⟨p1, hp1, hia1⟩ := execOp_preserves_inactive c pid p op hw hp hia
    exact ih (execOp c op) p1 (inv_execOp c op hw) hp1 hia1

/-- Claim C6: on a reachable state, once a poll's is_active is false, no
sequence of operations revives it: the poll stays present and inactive,
every subsequent cast_vote on it returns PollInactive (leaving the state
unchanged), and get_active_polls never lists it. -/
theorem claim_C6 (c : VotingContract) (pid : Nat) (p : Poll) (ops : List Op)
    (hr : Reachable c) (hp : lookupKey c.polls pid = some p)
    (hia : p.is_active = false) :
    containsKey (applyOps c ops).polls pid = true ∧
    (∀ q, lookupKey (applyOps c ops).polls pid = some q → q.is_active = false) ∧
    (∀ voter idx, cast_vote (applyOps c ops) voter pid idx =
      (Except.error VotingError.PollInactive, applyOps c ops)) ∧
    (∀ q, (pid, q) ∉ get_active_polls (applyOps c ops)) := by
  have hw := reachable_inv c hr
  obtain ⟨p', hp', hia'⟩ := applyOps_preserves_inactive ops c pid p hw hp hia
  have hwa : Inv (applyOps c ops) := inv_applyOps c ops hw
  refine ⟨by simp [containsKey, hp'], ?_, ?_, ?_⟩
  · intro q hq
    rw [hp'] at hq
    rw [← Option.some.inj hq]
    exact hia'
  · intro voter idx
    simp [cast_vote, hp', hia']
  · intro q hq
    have hmem : (pid, q) ∈ (applyOps c ops).polls ∧ q.is_active := by
      simpa [get_active_polls, List.mem_filter] using hq
    have hlq := lookupKey_of_mem_nodup _ _ _ hwa.1.1 hmem.1
    rw [hp'] at hlq
    have hqf : q.is_active = false := by
      rw [← Option.some.inj hlq]
      exact hia'
    rw [hqf] at hmem
    exact Bool.false_ne_true hmem.2

theorem claim_C6_witness :
    containsKey (applyOps eState [Op.addAdmin addr0 addr3]).polls 1 = true ∧
    cast_vote (applyOps eState [Op.addAdmin addr0 addr3]) addr2 1 0 =
      (Except.error VotingError.PollInactive, applyOps eState [Op.addAdmin addr0 addr3]) ∧
    (1, ePoll) ∉ get_active_polls (applyOps eState [Op.addAdmin addr0 addr3]) := by
  have h := claim_C6 eState 1 ePoll [Op.addAdmin addr0 addr3]
    ⟨eOps, rfl⟩ (by decide) (by decide)
  exact ⟨h.1, h.2.2.1 addr2 0, h.2.2.2 ePoll⟩

end Voting
